import Mathlib

/-!
Verification development for the evidence-acquisition pipeline in
`tools/prediction_sum_url_content.py`.

The Python source is shallowly embedded: pure fragments become Lean
functions over `String`/`List`; the external collaborators (Google search
API, HTTP fetch, BERT encoder, spaCy recognizer, OpenAI calls) are
parameters of the embedded functions; fallible collaborator calls return
`Except`/`Option`.  Python string operations are modelled on `String.data`
(`List Char`) so that everything is executable and provable.
-/

/-! ### Python string primitives -/

/-- The whitespace characters recognised by Python's `str.split()`
(ASCII fragment: space, tab, newline, carriage return, vertical tab,
form feed). -/
def pyWs (c : Char) : Bool :=
  c == ' ' || c == '\t' || c == '\n' || c == '\r' || c == '\x0b' || c == '\x0c'

/-- Split a character list at every character satisfying `p`, keeping empty
chunks, as Python's `str.split(sep)` does for a one-character separator. -/
def splitData (p : Char → Bool) : List Char → List (List Char)
  | [] => [[]]
  | c :: rest =>
    if p c then [] :: splitData p rest
    else
      match splitData p rest with
      | [] => [[c]]
      | h :: t => (c :: h) :: t

/-- Join chunks with a separator list, as Python's `sep.join(parts)`. -/
def joinSepData (sep : List Char) : List (List Char) → List Char
  | [] => []
  | [x] => x
  | x :: xs => x ++ sep ++ joinSepData sep xs

/-- Python `s.split(' ')`: split at each single space, keeping empty chunks. -/
def pySplitSpace (s : String) : List String :=
  (splitData (fun c => c == ' ') s.data).map fun l => ⟨l⟩

/-- Python `s.split()`: split at whitespace runs, dropping empty chunks. -/
def pySplit (s : String) : List String :=
  ((splitData pyWs s.data).filter (fun l => l ≠ [])).map fun l => ⟨l⟩

/-- Python `sep.join(parts)`. -/
def pyJoin (sep : String) (parts : List String) : String :=
  ⟨joinSepData sep.data (parts.map String.data)⟩

/-- Python `s.endswith(suffix)`: case-sensitive suffix match on the whole
string. -/
def pyEndsWith (s suf : String) : Bool :=
  suf.data.isSuffixOf s.data

/-- Python `pat in s`: substring containment. -/
def pyContains (s pat : String) : Bool :=
  (List.range (s.data.length + 1)).any fun i => pat.data.isPrefixOf (s.data.drop i)

/-! ### URL resolution (`search_google`, `get_urls_from_queries`)

`search_google` performs the external Google Custom Search call; it is
modelled as a parameter `search : String → Except ε (List String)` mapping
a query to the list of result links (`.error` models the API call
raising).  The `api_key` / `engine` / `num=3` arguments are absorbed into
the parameter. -/

/-- The accumulation loop of `get_urls_from_queries`: append the result
links of each query in order; a raised exception propagates (there is no
`try`/`except` in the source). -/
def collectSearchResults {ε : Type} (search : String → Except ε (List String)) :
    List String → Except ε (List String)
  | [] => .ok []
  | q :: qs =>
    match search q with
    | .error e => .error e
    | .ok urls =>
      match collectSearchResults search qs with
      | .error e => .error e
      | .ok rest => .ok (urls ++ rest)

/-- Embedding of `get_urls_from_queries`: collect all result links, then
`list(set(results))` (modelled by `List.dedup`; the Python set iteration
order is unspecified, and no claim depends on the order), then drop URLs
with `url.endswith(".pdf")`. -/
def get_urls_from_queries {ε : Type} (search : String → Except ε (List String))
    (queries : List String) : Except ε (List String) :=
  match collectSearchResults search queries with
  | .error e => .error e
  | .ok results => .ok ((results.dedup).filter (fun url => ¬ pyEndsWith url ".pdf"))

/-- Modelled from the spec: the spec's notion of the path component of a
URL (the claim C5 speaks of "URL whose path ends in .pdf"); the path is
the URL up to the first query (`?`) or fragment (`#`) delimiter.  The code
itself has no URL parsing. -/
def specUrlPath (url : String) : String :=
  ⟨url.data.takeWhile (fun c => ¬ (c == '?' || c == '#'))⟩

/-! ### Date extractor (`get_date`)

Parsed markup (the BeautifulSoup `soup`) is modelled as the list of its
`<meta>` tags in document order (each with optional `name`, `property`
and `content` attributes) and the list of its `<time>` tags (each with an
optional `datetime` attribute).  `soup.find("meta", {"name": n})` is the
first meta tag whose `name` attribute equals `n`; `find` returns `None`
when there is no match, and a found tag is truthy. -/

structure MetaTag where
  name : Option String
  prop : Option String
  content : Option String
deriving DecidableEq

structure TimeTag where
  datetime : Option String
deriving DecidableEq

structure Soup where
  metas : List MetaTag
  times : List TimeTag
deriving DecidableEq

/-- `soup.find("meta", {"name": n}) or soup.find("meta", {"property": n})`. -/
def findTag (soup : Soup) (n : String) : Option MetaTag :=
  (soup.metas.find? (fun m => m.name = some n)).orElse
    (fun _ => soup.metas.find? (fun m => m.prop = some n))

/-- The `release_date_names` priority list, transcribed from the source. -/
def release_date_names : List String := [
  "date", "pubdate", "publishdate", "OriginalPublicationDate",
  "article:published_time", "sailthru.date", "article.published",
  "published-date", "og:published_time", "publication_date",
  "publishedDate", "dc.date", "DC.date", "article:published",
  "article_date_original", "cXenseParse:recs:publishtime", "DATE_PUBLISHED",
  "pub-date", "pub_date", "datePublished", "date_published",
  "time_published", "article:published_date", "parsely-pub-date",
  "publish-date", "pubdatetime", "published_time", "publishedtime",
  "article_date", "created_date", "published_at",
  "og:published_time", "og:release_date", "article:published_time",
  "og:publication_date", "og:pubdate", "article:publication_date",
  "product:availability_starts", "product:release_date", "event:start_date",
  "event:release_date", "og:time_published", "og:start_date", "og:created",
  "og:creation_date", "og:launch_date", "og:first_published",
  "og:original_publication_date", "article:published", "article:pub_date",
  "news:published_time", "news:publication_date", "blog:published_time",
  "blog:publication_date", "report:published_time", "report:publication_date",
  "webpage:published_time", "webpage:publication_date", "post:published_time",
  "post:publication_date", "item:published_time", "item:publication_date"]

/-- The `update_date_names` priority list, transcribed from the source. -/
def update_date_names : List String := [
  "lastmod", "lastmodified", "last-modified", "updated",
  "dateModified", "article:modified_time", "modified_date",
  "article:modified", "og:updated_time", "mod_date",
  "modifiedDate", "lastModifiedDate", "lastUpdate", "last_updated",
  "LastUpdated", "UpdateDate", "updated_date", "revision_date",
  "sentry:revision", "article:modified_date", "date_updated",
  "time_updated", "lastUpdatedDate", "last-update-date", "lastupdate",
  "dateLastModified", "article:update_time", "modified_time",
  "last_modified_date", "date_last_modified",
  "og:updated_time", "og:modified_time", "article:modified_time",
  "og:modification_date", "og:mod_time", "article:modification_date",
  "product:availability_ends", "product:modified_date", "event:end_date",
  "event:updated_date", "og:time_modified", "og:end_date", "og:last_modified",
  "og:modification_date", "og:revision_date", "og:last_updated",
  "og:most_recent_update", "article:updated", "article:mod_date",
  "news:updated_time", "news:modification_date", "blog:updated_time",
  "blog:modification_date", "report:updated_time", "report:modification_date",
  "webpage:updated_time", "webpage:modification_date", "post:updated_time",
  "post:modification_date", "item:updated_time", "item:modification_date"]

/-- One pass of the `for name in ...:` loops of `get_date`: the running
date variable is overwritten by `meta_tag.get("content", "")` whenever a
tag is found (the loop has no `break`). -/
def dateLoop (soup : Soup) : List String → String → String
  | [], acc => acc
  | n :: ns, acc =>
    match findTag soup n with
    | some m => dateLoop soup ns (m.content.getD "")
    | none => dateLoop soup ns acc

/-- Embedding of `get_date`. -/
def get_date (soup : Soup) : String :=
  let modified_date := dateLoop soup update_date_names "unknown"
  let release_date := dateLoop soup release_date_names "unknown"
  let release_date :=
    if release_date = "unknown" ∧ modified_date = "unknown" then
      match soup.times.head? with
      | some t => t.datetime.getD ""
      | none => release_date
    else release_date
  "Release date " ++ release_date ++ ", Modified date " ++ modified_date

/-! ### Relevance ranker (`get_website_summary`)

The external collaborators are parameters:
`score prompt sentence` models the cosine similarity between the
mean-pooled BERT embeddings of the prompt and of the sentence (scores are
modelled in `ℚ`; no claim depends on the numeric representation), and
`analyze text` models the spaCy document: its sentence segmentation and
its named-entity text spans. -/

structure NlpDoc where
  sents : List String
  ents : List String

/-- The candidate sentences: sentence units with at least 5
whitespace-delimited tokens, cropped to the first 300. -/
def candidateSentences (analyze : String → NlpDoc) (text : String) : List String :=
  (((analyze text).sents.filter (fun s => 5 ≤ (pySplit s).length)).take 300)

/-- The source's similarity threshold `0.7`, as the reduced rational
`7/10` (written in constructor form so that the kernel can evaluate
comparisons; `simThreshold_eq` certifies the value). -/
def simThreshold : ℚ := ⟨7, 10, by decide, by decide⟩

/-- The source's entity boost `0.05`, as the reduced rational `1/20`
(`entityBoost_eq` certifies the value). -/
def entityBoost : ℚ := ⟨1, 20, by decide, by decide⟩

/-- The per-sentence post-boost score: cosine similarity plus the fixed
0.05 boost when some recognised entity is a literal substring of the
sentence. -/
def sentenceScore (score : String → String → ℚ) (prompt : String)
    (ents : List String) (s : String) : ℚ :=
  let sim := score prompt s
  if ents.any (fun e => pyContains s e) then sim + entityBoost else sim

/-- The scored sentence list, in document order (`zip(sentences, similarities)`). -/
def scoredPairs (score : String → String → ℚ) (analyze : String → NlpDoc)
    (text prompt : String) : List (String × ℚ) :=
  let sentences := candidateSentences analyze text
  let sims := sentences.map (sentenceScore score prompt (analyze text).ents)
  sentences.zip sims

/-- Python's `sorted(..., key=lambda x: x[1], reverse=True)` is a stable
descending sort by score; stable sorts are extensionally unique, so it is
modelled by insertion sort with the total relation `b.2 ≤ a.2`. -/
def rankedPairs (score : String → String → ℚ) (analyze : String → NlpDoc)
    (text prompt : String) : List (String × ℚ) :=
  (scoredPairs score analyze text prompt).insertionSort
    (fun a b => b.2 ≤ a.2)

/-- The sentences retained after ranking: score strictly above 0.7. -/
def relevantSentences (score : String → String → ℚ) (analyze : String → NlpDoc)
    (text prompt : String) : List String :=
  ((rankedPairs score analyze text prompt).filter (fun x => simThreshold < x.2)).map
    (fun x => x.1)

/-- Embedding of `get_website_summary`. -/
def get_website_summary (score : String → String → ℚ) (analyze : String → NlpDoc)
    (text prompt : String) (max_words : Nat) : String :=
  if prompt = "" ∨ text = "" then ""
  else
    let output := pyJoin " " ((relevantSentences score analyze text prompt).take 4)
    let output_words := pySplitSpace output
    if max_words < output_words.length then pyJoin " " (output_words.take max_words)
    else output

/-! ### Concurrent fetch scheduler and evidence aggregator
(`process_in_batches`, `extract_texts`)

Each URL's fetch resolves to a predetermined `TaskResult` (the HTTP
response, a read timeout, or another raised error), so a run of
`extract_texts` is determined by the list of `(url, result)` pairs in URL
order.  `ex body` models `extract_text(html=body, ...)`: `some t` when it
returns the snippet `t`, `none` when it raises (caught by the generic
`except`).  The instrumented interpreter also returns the list of tasks
whose futures were actually examined, to express the early-stop claim. -/

inductive TaskResult where
  | ok (status : Nat) (body : String)
  | readTimeout
  | exn
deriving DecidableEq

/-- The body of the per-URL loop: `none` when the task is skipped
(non-200 status via `continue`, or a caught exception), `some text` when
the document is accepted and appended as `f"{url}\n{extracted_text}"`. -/
def acceptTask (ex : String → Option String) : String × TaskResult → Option String
  | (url, .ok status body) =>
    if status ≠ 200 then none
    else
      match ex body with
      | some t => some (url ++ "\n" ++ t)
      | none => none
  | (_, .readTimeout) => none
  | (_, .exn) => none

/-- The result of one inner batch loop: the texts appended in this
batch, the new success count, the `stop` flag, and the tasks examined. -/
structure BatchOut where
  texts : List String
  count : Nat
  stop : Bool
  processed : List (String × TaskResult)

/-- The inner `for future, url in batch` loop, with the running success
count (the `break` on reaching 45 skips the rest of the batch). -/
def runBatch (ex : String → Option String) :
    List (String × TaskResult) → Nat → BatchOut
  | [], count => ⟨[], count, false, []⟩
  | t :: ts, count =>
    match acceptTask ex t with
    | none =>
      let o := runBatch ex ts count
      ⟨o.texts, o.count, o.stop, t :: o.processed⟩
    | some s =>
      if 45 ≤ count + 1 then ⟨[s], count + 1, true, [t]⟩
      else
        let o := runBatch ex ts (count + 1)
        ⟨s :: o.texts, o.count, o.stop, t :: o.processed⟩

/-- The outer `for batch in process_in_batches(...)` loop (the `stop`
flag breaks out before any later window is touched). -/
def runBatches (ex : String → Option String) :
    List (List (String × TaskResult)) → Nat → List String × List (String × TaskResult)
  | [], _ => ([], [])
  | b :: bs, count =>
    let o := runBatch ex b count
    if o.stop then (o.texts, o.processed)
    else (o.texts ++ (runBatches ex bs o.count).1, o.processed ++ (runBatches ex bs o.count).2)

/-- Contiguous windows of size `n` (`urls[i : i + window]`). -/
def chunksOf : Nat → List α → List (List α)
  | _, [] => []
  | 0, _ :: _ => []
  | n + 1, x :: xs =>
    (x :: xs).take (n + 1) :: chunksOf (n + 1) ((x :: xs).drop (n + 1))
termination_by _ l => l.length
decreasing_by
  simp only [List.length_drop, List.length_cons]
  omega

/-- Embedding of `process_in_batches` with the default window of 5
(the futures are the predetermined task results). -/
def process_in_batches (tasks : List (String × TaskResult)) :
    List (List (String × TaskResult)) :=
  chunksOf 5 tasks

/-- Embedding of `extract_texts` (`max_allowed = 45`, initial count 0). -/
def extract_texts (ex : String → Option String)
    (tasks : List (String × TaskResult)) : List String :=
  (runBatches ex (process_in_batches tasks) 0).1

/-- The tasks whose futures `extract_texts` actually examines. -/
def processedTasks (ex : String → Option String)
    (tasks : List (String × TaskResult)) : List (String × TaskResult) :=
  (runBatches ex (process_in_batches tasks) 0).2

/-- Reference interpreter used in proofs: process the flat task list in
order, stopping right after the `r`-th accepted document; returns
(accepted texts, examined tasks). -/
def capRun (ex : String → Option String) :
    List (String × TaskResult) → Nat → List String × List (String × TaskResult)
  | [], _ => ([], [])
  | t :: ts, r =>
    match acceptTask ex t with
    | none => ((capRun ex ts r).1, t :: (capRun ex ts r).2)
    | some s =>
      if r ≤ 1 then ([s], [t])
      else (s :: (capRun ex ts (r - 1)).1, t :: (capRun ex ts (r - 1)).2)

/-- Number of tasks of `l` that would be accepted. -/
def countAccepts (ex : String → Option String) (l : List (String × TaskResult)) : Nat :=
  (l.filterMap (acceptTask ex)).length

/-! ### Task entry point (`run`)

The OpenAI / moderation / prompt-formatting collaborators are parameters.
The effect trace records which pipeline collaborators were invoked, in
order; `fetch_additional_information` (query planning + search + fetch +
summarization) reports its own effects through its return value.
A Python `ValueError` is modelled as `Except.error`. -/

inductive Effect where
  | planEffect
  | searchEffect
  | fetchEffect
  | moderateEffect
  | predictEffect
deriving DecidableEq

structure RunDeps where
  fetch_additional_information : String → List Effect × String
  moderationFlagged : String → Bool
  mkPredictionPrompt : String → String → String → String
  chatCompletion : String → String → String

def ALLOWED_TOOLS : List String := [
  "prediction-offline-sum-url-content",
  "prediction-online-sum-url-content"]

def TOOL_TO_ENGINE : List (String × String) := [
  ("prediction-offline-sum-url-content", "gpt-3.5-turbo"),
  ("prediction-online-sum-url-content", "gpt-3.5-turbo")]

/-- Embedding of `run`: the tool check happens before the engine lookup,
the `fetch_additional_information` call, the moderation call and the
prediction call; `kwargs` extraction and the `openai.api_key` assignment
that precede it perform none of the traced effects. -/
def run (deps : RunDeps) (tool prompt today_date : String) :
    Except String (String × Option Unit) × List Effect :=
  if tool ∉ ALLOWED_TOOLS then
    (.error ("Tool " ++ tool ++ " is not supported."), [])
  else
    match (TOOL_TO_ENGINE.filter (fun p => p.1 = tool)).head? with
    | none => (.error "KeyError", [])
    | some (_, engine) =>
      let fetched :=
        if tool = "prediction-online-sum-url-content" then
          deps.fetch_additional_information prompt
        else ([], "")
      let prediction_prompt := deps.mkPredictionPrompt prompt fetched.2 today_date
      if deps.moderationFlagged prediction_prompt then
        (.ok ("Moderation flagged the prompt as in violation of terms.", none),
          fetched.1 ++ [Effect.moderateEffect])
      else
        (.ok (deps.chatCompletion engine prediction_prompt, none),
          fetched.1 ++ [Effect.moderateEffect, Effect.predictEffect])

/-! ### Derived selectors and concrete collaborator instances used in
counterexamples and witnesses -/

/-- The content of the last name in `names` that finds a tag in `soup`
(the value the no-`break` loops of `get_date` end with). -/
def lastFound (soup : Soup) (names : List String) : Option String :=
  (names.filterMap (fun n => (findTag soup n).map (fun m => m.content.getD ""))).getLast?

/-- Every string `get_date` can extract from a document: the
`get("content", "")` of each meta tag and the `get("datetime", "")` of
each time tag. -/
def extractedContents (soup : Soup) : List String :=
  soup.metas.map (fun m => m.content.getD "") ++ soup.times.map (fun t => t.datetime.getD "")

/-- A search provider that raises on query "a" and succeeds on any other
query. -/
def c1search : String → Except String (List String) :=
  fun q => if q = "a" then .error "boom" else .ok ["u"]

/-- A document whose meta tags match two names of the modified-date list,
with different contents. -/
def c2soup : Soup :=
  ⟨[⟨some "lastmod", none, some "A"⟩, ⟨some "lastmodified", none, some "B"⟩], []⟩

/-- A search provider returning a duplicated URL whose path (but not whole
string) ends in ".pdf". -/
def c5search : String → Except String (List String) :=
  fun _ => .ok ["http://e.com/doc.pdf?dl=1", "http://e.com/doc.pdf?dl=1"]

/-- A document with a meta tag matching a modified-date name but carrying
no `content` attribute. -/
def c6soup : Soup := ⟨[⟨some "lastmod", none, none⟩], []⟩

/-- An `extract_text` model that extracts every body unchanged. -/
def exId : String → Option String := fun b => some b

/-- A constant encoder: every sentence has cosine similarity 1. -/
def constScore : String → String → ℚ := fun _ _ => 1

/-- A recognizer that segments a text into the single sentence equal to
the whole text and finds no entities. -/
def singletonDoc : String → NlpDoc := fun t => ⟨[t], []⟩

/-- A sentence of 151 tokens separated by tabs: 151 whitespace-delimited
words but a single `split(' ')` chunk. -/
def c4text : String := pyJoin "\t" (List.replicate 151 "w")

/-- Trivial collaborator instances for the `run` entry point. -/
def c10deps : RunDeps :=
  ⟨fun _ => ([Effect.searchEffect], "x"), fun _ => false, fun a _ _ => a, fun _ _ => "r"⟩

/-! ### Helper lemmas -/

/-- The overwrite loop ends with the content of the last matching name,
or with the initial value when no name matches. -/
theorem dateLoop_eq (soup : Soup) (names : List String) (init : String) :
    dateLoop soup names init = (lastFound soup names).getD init := by
  induction names generalizing init with
  | nil => rfl
  | cons n ns ih =>
    unfold dateLoop lastFound
    cases h : findTag soup n with
    | none => simp only [h, List.filterMap_cons, Option.map_none']; exact ih init
    | some m =>
      simp only [h, List.filterMap_cons, Option.map_some']
      rw [ih (m.content.getD "")]
      unfold lastFound
      cases hfm : (ns.filterMap (fun n => (findTag soup n).map (fun m => m.content.getD ""))) with
      | nil => rfl
      | cons x xs =>
        rw [List.getLast?_cons_cons, List.getLast?_eq_getLast (x :: xs) (by simp)]
        rfl

/-- A tag found by `findTag` is one of the document's meta tags. -/
theorem findTag_mem {soup : Soup} {n : String} {m : MetaTag}
    (h : findTag soup n = some m) : m ∈ soup.metas := by
  unfold findTag at h
  cases h1 : soup.metas.find? (fun m => m.name = some n) with
  | some m1 =>
    rw [h1] at h
    simp only [Option.orElse] at h
    cases h
    exact List.mem_of_find?_eq_some h1
  | none =>
    rw [h1] at h
    simp only [Option.orElse] at h
    exact List.mem_of_find?_eq_some h

/-- The overwrite loop of `get_date` ends with the initial value or with
the `content` of some meta tag of the document. -/
theorem dateLoop_mem (soup : Soup) (names : List String) (init : String) :
    dateLoop soup names init = init ∨
      dateLoop soup names init ∈ soup.metas.map (fun m => m.content.getD "") := by
  induction names generalizing init with
  | nil => exact Or.inl rfl
  | cons n ns ih =>
    unfold dateLoop
    cases h : findTag soup n with
    | none => simpa [h] using ih init
    | some m =>
      simp only [h]
      rcases ih (m.content.getD "") with h1 | h1
      · right
        rw [h1]
        exact List.mem_map.mpr ⟨m, findTag_mem h, rfl⟩
      · exact Or.inr h1

/-! ### Claim C10 -/

/-- Claim C10: for every invocation of `run` with a tool name not in
`ALLOWED_TOOLS`, `run` raises a `ValueError` before performing any query
planning, search, fetch, moderation or prediction call (the effect trace
is empty). -/
theorem c10_invalid_tool (deps : RunDeps) (tool prompt today_date : String)
    (h : tool ∉ ALLOWED_TOOLS) :
    run deps tool prompt today_date
      = (.error ("Tool " ++ tool ++ " is not supported."), []) := by
  simp [run, h]

/-- Witness for C10 at the concrete tool name "bogus". -/
theorem c10_invalid_tool_witness :
    run c10deps "bogus" "p" "2023-08-01"
      = (.error ("Tool " ++ "bogus" ++ " is not supported."), []) :=
  c10_invalid_tool c10deps "bogus" "p" "2023-08-01" (by decide)

/-! ### Claim C1 -/

/-- Counterexample to claim C1: with a provider failing on query "a" and
succeeding on query "b", `get_urls_from_queries ["a", "b"]` propagates the
error instead of returning the URLs of the non-failing query "b". -/
theorem c1_counterexample :
    get_urls_from_queries c1search ["a", "b"] = .error "boom" ∧
    get_urls_from_queries c1search ["a", "b"] ≠ .ok ["u"] := by
  have h1 : get_urls_from_queries c1search ["a", "b"] = .error "boom" := rfl
  refine ⟨h1, ?_⟩
  rw [h1]
  intro h
  exact Except.noConfusion h

/-- Claim C1 amended: if the search provider raises on some query, the
error propagates out of `get_urls_from_queries` (the run is aborted; the
non-failing queries before the failing one contribute nothing). -/
theorem c1_error_propagates {ε : Type} (search : String → Except ε (List String))
    (qs1 qs2 : List String) (q : String) (e : ε)
    (hok : ∀ q' ∈ qs1, ∃ us, search q' = .ok us)
    (herr : search q = .error e) :
    get_urls_from_queries search (qs1 ++ q :: qs2) = .error e := by
  have hcollect : collectSearchResults search (qs1 ++ q :: qs2) = .error e := by
    induction qs1 with
    | nil => simp [collectSearchResults, herr]
    | cons q' qs1' ih =>
      obtain ⟨us, hus⟩ := hok q' (List.mem_cons_self q' qs1')
      have ih' := ih (fun x hx => hok x (List.mem_cons_of_mem q' hx))
      simp [collectSearchResults, hus, ih']
  simp [get_urls_from_queries, hcollect]

/-- Witness for C1 amended: query "b" succeeds, query "a" fails, and the
error of "a" comes out. -/
theorem c1_error_propagates_witness :
    get_urls_from_queries c1search (["b"] ++ "a" :: ["b"]) = .error "boom" :=
  c1_error_propagates c1search ["b"] ["b"] "a" "boom"
    (by
      intro q' hq'
      have : q' = "b" := by simpa using hq'
      subst this
      exact ⟨["u"], rfl⟩)
    rfl

/-! ### Claim C2 -/

/-- Counterexample to claim C2: the document `c2soup` matches both
"lastmod" (content "A") and the later list entry "lastmodified"
(content "B"); `get_date` reports "B", not the first match "A" — the
loops have no `break`, so later matches overwrite earlier ones. -/
theorem c2_counterexample :
    get_date c2soup = "Release date unknown, Modified date B" ∧
    get_date c2soup ≠ "Release date unknown, Modified date A" := by
  constructor
  · rfl
  · intro h
    have h1 : get_date c2soup = "Release date unknown, Modified date B" := rfl
    rw [h1] at h
    simp at h

/-- Claim C2 amended: for each of the two priority lists, the content of
the LAST matching name in list order is taken (each later match
overwrites the earlier ones); when no name of a list matches, the
sentinel "unknown" is kept, and when both dates stay "unknown" the first
time tag's datetime is used as the release date. -/
theorem c2_last_match_wins (soup : Soup) :
    get_date soup =
      "Release date "
        ++ (if (lastFound soup release_date_names).getD "unknown" = "unknown"
              ∧ (lastFound soup update_date_names).getD "unknown" = "unknown" then
              match soup.times.head? with
              | some t => t.datetime.getD ""
              | none => (lastFound soup release_date_names).getD "unknown"
            else (lastFound soup release_date_names).getD "unknown")
        ++ ", Modified date " ++ (lastFound soup update_date_names).getD "unknown" := by
  simp only [get_date, dateLoop_eq]

/-! ### Claim C6 -/

/-- Counterexample to claim C6: `c6soup` has a meta tag matching the
modified-date name "lastmod" with no `content` attribute, so
`meta_tag.get("content", "")` yields the empty string: the output's
modified-date field is empty — neither a non-empty string nor
"unknown". -/
theorem c6_counterexample :
    get_date c6soup = "Release date " ++ "unknown" ++ ", Modified date " ++ "" ∧
    ("" : String) ≠ "unknown" := by
  constructor
  · rfl
  · intro h
    simp at h

/-- Claim C6 amended: for every parsed document, the Date Extractor
returns a string of the exact shape "Release date X, Modified date Y"
where each of X and Y is either the sentinel "unknown" or a string
extracted from the document (a meta tag's content or a time tag's
datetime, defaulted to "" when the attribute is absent — so an extracted
field can be the empty string). -/
theorem c6_output_shape (soup : Soup) :
    ∃ X Y, get_date soup = "Release date " ++ X ++ ", Modified date " ++ Y ∧
      (X = "unknown" ∨ X ∈ extractedContents soup) ∧
      (Y = "unknown" ∨ Y ∈ extractedContents soup) := by
  unfold get_date
  have hmod := dateLoop_mem soup update_date_names "unknown"
  have hrel := dateLoop_mem soup release_date_names "unknown"
  have hmem : ∀ s, s ∈ soup.metas.map (fun m => m.content.getD "") →
      s ∈ extractedContents soup := by
    intro s hs
    exact List.mem_append.mpr (Or.inl hs)
  refine ⟨_, _, rfl, ?_, ?_⟩
  · split
    · cases htime : soup.times.head? with
      | none =>
        simp only
        rcases hrel with h | h
        · exact Or.inl h
        · exact Or.inr (hmem _ h)
      | some t =>
        simp only
        right
        refine List.mem_append.mpr (Or.inr ?_)
        refine List.mem_map.mpr ⟨t, ?_, rfl⟩
        exact List.mem_of_mem_head? htime
    · rcases hrel with h | h
      · exact Or.inl h
      · exact Or.inr (hmem _ h)
  · rcases hmod with h | h
    · exact Or.inl h
    · exact Or.inr (hmem _ h)

/-! ### Claim C5 -/

/-- Counterexample to claim C5: the URL "http://e.com/doc.pdf?dl=1" has a
path ending in ".pdf" but the URL string does not, so the code keeps it:
the resolution output contains a URL whose path ends in ".pdf" (the code
filters on the full URL string, not on the path).  Deduplication itself
does happen (the duplicate collapses to one entry). -/
theorem c5_counterexample :
    get_urls_from_queries c5search ["q"] = .ok ["http://e.com/doc.pdf?dl=1"] ∧
    pyEndsWith (specUrlPath "http://e.com/doc.pdf?dl=1") ".pdf" = true ∧
    pyEndsWith "http://e.com/doc.pdf?dl=1" ".pdf" = false := by
  refine ⟨rfl, ?_, ?_⟩ <;> decide

/-- Claim C5 amended: when every query's search succeeds, the output
contains each URL at most once and contains a URL exactly when it is one
of the collected results and the full URL string does not end in ".pdf"
(case-sensitive suffix match on the whole URL, not on its path
component). -/
theorem c5_dedup_filter {ε : Type} (search : String → Except ε (List String))
    (queries : List String) (rs : List String)
    (h : collectSearchResults search queries = .ok rs) :
    ∃ out, get_urls_from_queries search queries = .ok out ∧
      out.Nodup ∧
      ∀ u, u ∈ out ↔ (u ∈ rs ∧ pyEndsWith u ".pdf" = false) := by
  refine ⟨(rs.dedup).filter (fun url => ¬ pyEndsWith url ".pdf"), ?_, ?_, ?_⟩
  · simp [get_urls_from_queries, h]
  · exact (List.nodup_dedup rs).filter _
  · intro u
    simp [List.mem_filter, List.mem_dedup]

/-- Witness for C5 amended: one query returning a duplicate URL, a ".pdf"
URL and a further URL; the output drops the duplicate and the pdf. -/
theorem c5_dedup_filter_witness :
    ∃ out, get_urls_from_queries (ε := String)
        (fun _ => .ok ["x", "x", "y.pdf", "z"]) ["q"] = .ok out ∧
      out.Nodup ∧
      ∀ u, u ∈ out ↔ (u ∈ ["x", "x", "y.pdf", "z"] ∧ pyEndsWith u ".pdf" = false) :=
  c5_dedup_filter (fun _ => .ok ["x", "x", "y.pdf", "z"]) ["q"]
    ["x", "x", "y.pdf", "z"] rfl

/-! ### Split / join lemmas for the word cap -/

/-- `splitData` never returns the empty list of chunks. -/
theorem splitData_ne_nil (p : Char → Bool) (l : List Char) : splitData p l ≠ [] := by
  cases l with
  | nil => simp [splitData]
  | cons c rest =>
    unfold splitData
    by_cases h : p c = true
    · simp [h]
    · simp only [h]
      cases splitData p rest <;> simp

/-- Chunks produced by `splitData` contain no separator character. -/
theorem splitData_chunks_clean (p : Char → Bool) (l : List Char) :
    ∀ chunk ∈ splitData p l, ∀ c ∈ chunk, p c = false := by
  induction l with
  | nil =>
    intro chunk hchunk c hc
    simp [splitData] at hchunk
    subst hchunk
    simp at hc
  | cons d rest ih =>
    intro chunk hchunk c hc
    unfold splitData at hchunk
    by_cases hd : p d = true
    · simp only [hd, if_true, List.mem_cons] at hchunk
      rcases hchunk with h | h
      · subst h; simp at hc
      · exact ih chunk h c hc
    · simp only [hd] at hchunk
      rw [if_neg (by simp [hd])] at hchunk
      cases hsp : splitData p rest with
      | nil => exact absurd hsp (splitData_ne_nil p rest)
      | cons h t =>
        rw [hsp] at hchunk
        rcases List.mem_cons.mp hchunk with h1 | h1
        · subst h1
          rcases List.mem_cons.mp hc with h2 | h2
          · subst h2; simpa using hd
          · exact ih h (by rw [hsp]; exact List.mem_cons_self h t) c h2
        · exact ih chunk (by rw [hsp]; exact List.mem_cons_of_mem h h1) c hc

/-- Splitting a separator-free list yields the single chunk equal to it. -/
theorem splitData_clean (p : Char → Bool) (l : List Char)
    (h : ∀ c ∈ l, p c = false) : splitData p l = [l] := by
  induction l with
  | nil => rfl
  | cons c rest ih =>
    unfold splitData
    have hc : p c = false := h c (List.mem_cons_self c rest)
    rw [if_neg (by simp [hc])]
    rw [ih (fun d hd => h d (List.mem_cons_of_mem c hd))]

/-- Prepending a separator-free block extends the first chunk. -/
theorem splitData_append (p : Char → Bool) (x l : List Char)
    (hx : ∀ c ∈ x, p c = false) (h : List Char) (t : List (List Char))
    (hl : splitData p l = h :: t) :
    splitData p (x ++ l) = (x ++ h) :: t := by
  induction x with
  | nil => simpa using hl
  | cons c xs ih =>
    have hc : p c = false := hx c (List.mem_cons_self c xs)
    have ih' := ih (fun d hd => hx d (List.mem_cons_of_mem c hd))
    simp only [List.cons_append]
    unfold splitData
    rw [if_neg (by simp [hc]), ih']

/-- Splitting the separator-join of nonempty separator-free chunks
recovers the chunks. -/
theorem splitData_joinSep (p : Char → Bool) (sep : Char) (hsep : p sep = true) :
    ∀ parts : List (List Char), parts ≠ [] →
      (∀ pt ∈ parts, ∀ c ∈ pt, p c = false) →
      splitData p (joinSepData [sep] parts) = parts := by
  intro parts
  induction parts with
  | nil => intro h; exact absurd rfl h
  | cons x xs ih =>
    intro _ hclean
    cases xs with
    | nil =>
      exact splitData_clean p x (hclean x (List.mem_cons_self x []))
    | cons y ys =>
      have hjoin : joinSepData [sep] (x :: y :: ys) = x ++ sep :: joinSepData [sep] (y :: ys) := by
        simp [joinSepData]
      rw [hjoin]
      have hrest : splitData p (sep :: joinSepData [sep] (y :: ys)) = [] :: (y :: ys) := by
        unfold splitData
        rw [if_pos hsep]
        rw [ih (by simp) (fun pt hpt c hc => hclean pt (List.mem_cons_of_mem x hpt) c hc)]
      have := splitData_append p x (sep :: joinSepData [sep] (y :: ys))
        (hclean x (List.mem_cons_self x (y :: ys))) [] (y :: ys) hrest
      rw [this]
      simp

/-- Structure eta for strings built from chunk data. -/
theorem mk_data_map (ws : List String) :
    (ws.map String.data).map (fun l => (⟨l⟩ : String)) = ws := by
  induction ws with
  | nil => rfl
  | cons w ws ih => simp [ih]

/-- Chunks of `pySplitSpace` contain no space character. -/
theorem pySplitSpace_clean (s : String) :
    ∀ w ∈ pySplitSpace s, ∀ c ∈ w.data, (c == ' ') = false := by
  intro w hw c hc
  unfold pySplitSpace at hw
  obtain ⟨l, hl, rfl⟩ := List.mem_map.mp hw
  exact splitData_chunks_clean _ _ l hl c hc

/-- Re-splitting a space-join of nonempty space-free chunks recovers the
chunks. -/
theorem pySplitSpace_pyJoin (ws : List String) (hne : ws ≠ [])
    (hclean : ∀ w ∈ ws, ∀ c ∈ w.data, (c == ' ') = false) :
    pySplitSpace (pyJoin " " ws) = ws := by
  unfold pySplitSpace pyJoin
  have hj : splitData (fun c => c == ' ') (joinSepData " ".data (ws.map String.data))
      = ws.map String.data := by
    apply splitData_joinSep (fun c => c == ' ') ' ' (by decide)
    · simpa using hne
    · intro pt hpt c hc
      obtain ⟨w, hw, rfl⟩ := List.mem_map.mp hpt
      exact hclean w hw c hc
  rw [show ((⟨joinSepData " ".data (ws.map String.data)⟩ : String)).data
      = joinSepData " ".data (ws.map String.data) from rfl]
  rw [hj, mk_data_map]

/-! ### Claim C4 -/

set_option maxRecDepth 8000 in
/-- Counterexample to claim C4: `c4text` is a single candidate sentence of
151 tab-separated tokens; with the default `max_words = 150` the
truncation counts `split(' ')` chunks (a single chunk here), so no
truncation happens and the output has 151 whitespace-delimited words,
exceeding the configured cap of 150. -/
theorem c4_counterexample :
    (pySplit (get_website_summary constScore singletonDoc c4text "q" 150)).length = 151 := by
  decide

/-- Claim C4 amended: the output is the space-join of at most 4 selected
sentences, possibly truncated, and the truncation bounds the number of
`split(' ')` chunks (single-space-delimited tokens, empty chunks
included) by the configured maximum — not the number of
whitespace-delimited tokens. -/
theorem c4_word_cap (score : String → String → ℚ) (analyze : String → NlpDoc)
    (text prompt : String) (max_words : Nat) (h : 1 ≤ max_words) :
    (pySplitSpace (get_website_summary score analyze text prompt max_words)).length
        ≤ max_words ∧
    ∃ sel : List String, sel.length ≤ 4 ∧
      (get_website_summary score analyze text prompt max_words = pyJoin " " sel ∨
        get_website_summary score analyze text prompt max_words
          = pyJoin " " ((pySplitSpace (pyJoin " " sel)).take max_words)) := by
  unfold get_website_summary
  by_cases hempty : prompt = "" ∨ text = ""
  · rw [if_pos hempty]
    constructor
    · have : pySplitSpace "" = [""] := rfl
      rw [this]
      simpa using h
    · exact ⟨[], by simp, Or.inl rfl⟩
  · rw [if_neg hempty]
    by_cases hlen : max_words
        < (pySplitSpace (pyJoin " "
            ((relevantSentences score analyze text prompt).take 4))).length
    · rw [if_pos hlen]
      have hresplit : pySplitSpace (pyJoin " "
          ((pySplitSpace (pyJoin " "
            ((relevantSentences score analyze text prompt).take 4))).take max_words))
          = (pySplitSpace (pyJoin " "
            ((relevantSentences score analyze text prompt).take 4))).take max_words := by
        apply pySplitSpace_pyJoin
        · intro hnil
          have hlen0 := congrArg List.length hnil
          rw [List.length_take] at hlen0
          simp only [List.length_nil] at hlen0
          omega
        · intro w hw c hc
          exact pySplitSpace_clean _ w (List.take_subset _ _ hw) c hc
      constructor
      · rw [hresplit, List.length_take]
        omega
      · exact ⟨(relevantSentences score analyze text prompt).take 4,
          List.length_take_le _ _, Or.inr rfl⟩
    · rw [if_neg hlen]
      constructor
      · omega
      · exact ⟨(relevantSentences score analyze text prompt).take 4,
          List.length_take_le _ _, Or.inl rfl⟩

/-- Witness for C4 amended at the default cap 150. -/
theorem c4_word_cap_witness :
    (pySplitSpace (get_website_summary constScore singletonDoc c4text "q" 150)).length
        ≤ 150 ∧
    ∃ sel : List String, sel.length ≤ 4 ∧
      (get_website_summary constScore singletonDoc c4text "q" 150 = pyJoin " " sel ∨
        get_website_summary constScore singletonDoc c4text "q" 150
          = pyJoin " " ((pySplitSpace (pyJoin " " sel)).take 150)) :=
  c4_word_cap constScore singletonDoc c4text "q" 150 (by decide)

/-- The threshold literal equals the source constant 0.7. -/
theorem simThreshold_eq : simThreshold = 7/10 := by
  rw [simThreshold, Rat.mk'_eq_divInt, Rat.divInt_eq_div]
  norm_num

/-- The boost literal equals the source constant 0.05. -/
theorem entityBoost_eq : entityBoost = 5/100 := by
  rw [entityBoost, Rat.mk'_eq_divInt, Rat.divInt_eq_div]
  norm_num

/-! ### Claim C8 -/

/-- Claim C8: the Relevance Ranker is deterministic — its output depends
only on the pointwise behaviour of the encoder and of the recognizer on
the given `(text, question)` pair, so re-running it on identical inputs
with a deterministic encoder yields the identical output string. -/
theorem c8_deterministic (score1 score2 : String → String → ℚ)
    (analyze1 analyze2 : String → NlpDoc) (text prompt : String) (max_words : Nat)
    (hs : ∀ s, score1 prompt s = score2 prompt s)
    (ha : analyze1 text = analyze2 text) :
    get_website_summary score1 analyze1 text prompt max_words
      = get_website_summary score2 analyze2 text prompt max_words := by
  have hpairs : scoredPairs score1 analyze1 text prompt
      = scoredPairs score2 analyze2 text prompt := by
    unfold scoredPairs candidateSentences
    rw [ha]
    dsimp only
    congr 1
    apply List.map_congr_left
    intro s _
    unfold sentenceScore
    rw [hs s]
  unfold get_website_summary relevantSentences rankedPairs
  rw [hpairs]

/-- Witness for C8 on a concrete rerun with the same deterministic
encoder and recognizer. -/
theorem c8_deterministic_witness :
    get_website_summary constScore singletonDoc "a b c d e" "q" 150
      = get_website_summary constScore singletonDoc "a b c d e" "q" 150 :=
  c8_deterministic constScore constScore singletonDoc singletonDoc
    "a b c d e" "q" 150 (fun _ => rfl) rfl

/-! ### Claim C9 -/

/-- Filter-form stability of insertion sort: if any two elements kept by
`p` are mutually related by `r`, sorting does not disturb their relative
order. -/
theorem insertionSort_filter_stable {α : Type} (r : α → α → Prop) [DecidableRel r]
    (p : α → Bool) (l : List α)
    (hp : ∀ a b, p a = true → p b = true → r a b) :
    (l.insertionSort r).filter p = l.filter p := by
  induction l with
  | nil => rfl
  | cons x xs ih =>
    rw [List.insertionSort, List.orderedInsert_eq_take_drop, List.filter_append]
    have hsplit : ((List.insertionSort r xs).takeWhile fun b => ¬ r x b).filter p
        ++ ((List.insertionSort r xs).dropWhile fun b => ¬ r x b).filter p
        = (List.insertionSort r xs).filter p := by
      rw [← List.filter_append, List.takeWhile_append_dropWhile]
    by_cases hpx : p x = true
    · have htw : ((List.insertionSort r xs).takeWhile fun b => ¬ r x b).filter p
          = [] := by
        rw [List.filter_eq_nil_iff]
        intro a ha hpa
        have hmem := List.mem_takeWhile_imp ha
        simp only [decide_eq_true_eq] at hmem
        exact hmem (hp x a hpx hpa)
      rw [htw, List.nil_append, List.filter_cons_of_pos hpx,
        List.filter_cons_of_pos hpx]
      congr 1
      have hdw := hsplit
      rw [htw, List.nil_append] at hdw
      rw [hdw, ih]
    · rw [List.filter_cons_of_neg hpx, hsplit, ih, List.filter_cons_of_neg hpx]

/-- Claim C9: the descending sort of the Relevance Ranker is stable —
for every score value `v`, the ranked pairs with score `v` appear in
exactly their original document order, and the pairs selected by the
top-4 cutoff among the ties form a prefix of the original tied pairs
(the earlier sentence is preferred). -/
theorem c9_stable_ties (score : String → String → ℚ) (analyze : String → NlpDoc)
    (text prompt : String) (v : ℚ) :
    (rankedPairs score analyze text prompt).filter (fun x => x.2 = v)
        = (scoredPairs score analyze text prompt).filter (fun x => x.2 = v) ∧
    ∃ rest,
      (((rankedPairs score analyze text prompt).filter
            (fun x => simThreshold < x.2)).take 4).filter (fun x => x.2 = v) ++ rest
        = (scoredPairs score analyze text prompt).filter (fun x => x.2 = v) := by
  have hstable : (rankedPairs score analyze text prompt).filter (fun x => x.2 = v)
      = (scoredPairs score analyze text prompt).filter (fun x => x.2 = v) := by
    unfold rankedPairs
    apply insertionSort_filter_stable
    intro a b ha hb
    simp only [decide_eq_true_eq] at ha hb
    rw [ha, hb]
  refine ⟨hstable, ?_⟩
  by_cases hv : simThreshold < v
  · have hpre : (((rankedPairs score analyze text prompt).filter
          (fun x => simThreshold < x.2)).take 4).filter (fun x => x.2 = v)
        <+: ((rankedPairs score analyze text prompt).filter
          (fun x => simThreshold < x.2)).filter (fun x => x.2 = v) :=
      (List.take_prefix 4 _).filter _
    have habsorb : ((rankedPairs score analyze text prompt).filter
          (fun x => simThreshold < x.2)).filter (fun x => x.2 = v)
        = (rankedPairs score analyze text prompt).filter (fun x => x.2 = v) := by
      rw [List.filter_filter]
      apply List.filter_congr
      intro x _
      by_cases hx : x.2 = v
      · simp [hx, hv]
      · simp [hx]
    rw [habsorb, hstable] at hpre
    obtain ⟨rest, hrest⟩ := hpre
    exact ⟨rest, hrest⟩
  · have hnil : (((rankedPairs score analyze text prompt).filter
          (fun x => simThreshold < x.2)).take 4).filter (fun x => x.2 = v) = [] := by
      rw [List.filter_eq_nil_iff]
      intro a ha hpa
      simp only [decide_eq_true_eq] at hpa
      have ha' := List.take_subset 4 _ ha
      have hq := (List.mem_filter.mp ha').2
      simp only [decide_eq_true_eq] at hq
      rw [hpa] at hq
      exact hv hq
    exact ⟨(scoredPairs score analyze text prompt).filter (fun x => x.2 = v),
      by rw [hnil, List.nil_append]⟩

/-! ### Interpreter lemmas for `extract_texts` -/

theorem capRun_cons_none {ex : String → Option String} {t : String × TaskResult}
    (ts : List (String × TaskResult)) (r : Nat) (h : acceptTask ex t = none) :
    capRun ex (t :: ts) r = ((capRun ex ts r).1, t :: (capRun ex ts r).2) := by
  simp only [capRun, h]

theorem capRun_cons_some_le {ex : String → Option String} {t : String × TaskResult}
    {s : String} (ts : List (String × TaskResult)) (r : Nat)
    (h : acceptTask ex t = some s) (hr : r ≤ 1) :
    capRun ex (t :: ts) r = ([s], [t]) := by
  simp only [capRun, h, if_pos hr]

theorem capRun_cons_some_gt {ex : String → Option String} {t : String × TaskResult}
    {s : String} (ts : List (String × TaskResult)) (r : Nat)
    (h : acceptTask ex t = some s) (hr : ¬ r ≤ 1) :
    capRun ex (t :: ts) r
      = (s :: (capRun ex ts (r - 1)).1, t :: (capRun ex ts (r - 1)).2) := by
  simp only [capRun, h, if_neg hr]

theorem countAccepts_cons_none {ex : String → Option String} {t : String × TaskResult}
    (ts : List (String × TaskResult)) (h : acceptTask ex t = none) :
    countAccepts ex (t :: ts) = countAccepts ex ts := by
  simp [countAccepts, List.filterMap_cons, h]

theorem countAccepts_cons_some {ex : String → Option String} {t : String × TaskResult}
    {s : String} (ts : List (String × TaskResult)) (h : acceptTask ex t = some s) :
    countAccepts ex (t :: ts) = countAccepts ex ts + 1 := by
  simp [countAccepts, List.filterMap_cons, h]

/-- The accepted texts of a capped run number at most the cap. -/
theorem capRun_fst_length (ex : String → Option String) :
    ∀ (l : List (String × TaskResult)) (r : Nat), (capRun ex l r).1.length ≤ max r 1 := by
  intro l
  induction l with
  | nil => intro r; simp [capRun]
  | cons t ts ih =>
    intro r
    cases hat : acceptTask ex t with
    | none => rw [capRun_cons_none ts r hat]; exact ih r
    | some s =>
      by_cases hr : r ≤ 1
      · rw [capRun_cons_some_le ts r hat hr]
        simp
      · rw [capRun_cons_some_gt ts r hat hr]
        have := ih (r - 1)
        simp only [List.length_cons]
        omega

/-- The examined tasks of a capped run form a prefix of the task list. -/
theorem capRun_snd_prefix (ex : String → Option String) :
    ∀ (l : List (String × TaskResult)) (r : Nat),
      ∃ rest, l = (capRun ex l r).2 ++ rest := by
  intro l
  induction l with
  | nil => intro r; exact ⟨[], rfl⟩
  | cons t ts ih =>
    intro r
    cases hat : acceptTask ex t with
    | none =>
      obtain ⟨rest, hrest⟩ := ih r
      rw [capRun_cons_none ts r hat]
      exact ⟨rest, by rw [List.cons_append, ← hrest]⟩
    | some s =>
      by_cases hr : r ≤ 1
      · rw [capRun_cons_some_le ts r hat hr]
        exact ⟨ts, rfl⟩
      · obtain ⟨rest, hrest⟩ := ih (r - 1)
        rw [capRun_cons_some_gt ts r hat hr]
        exact ⟨rest, by rw [List.cons_append, ← hrest]⟩

/-- Once the first `k` tasks contain `r` accepted documents, a run capped
at `r` examines at most `k` tasks. -/
theorem capRun_snd_length_le (ex : String → Option String) :
    ∀ (l : List (String × TaskResult)) (r k : Nat), 1 ≤ r →
      r ≤ countAccepts ex (l.take k) → (capRun ex l r).2.length ≤ k := by
  intro l
  induction l with
  | nil =>
    intro r k h1 hr
    simp [capRun]
  | cons t ts ih =>
    intro r k h1 hr
    cases k with
    | zero =>
      rw [List.take_zero] at hr
      simp [countAccepts] at hr
      omega
    | succ k' =>
      rw [List.take_succ_cons] at hr
      cases hat : acceptTask ex t with
      | none =>
        rw [countAccepts_cons_none _ hat] at hr
        rw [capRun_cons_none ts r hat]
        simpa using Nat.succ_le_succ (ih r k' h1 hr)
      | some s =>
        by_cases hrle : r ≤ 1
        · rw [capRun_cons_some_le ts r hat hrle]
          simp
        · rw [countAccepts_cons_some _ hat] at hr
          rw [capRun_cons_some_gt ts r hat hrle]
          have hih := ih (r - 1) k' (by omega) (by omega)
          simpa using Nat.succ_le_succ hih

theorem runBatch_cons_none (ex : String → Option String) (t : String × TaskResult)
    (ts : List (String × TaskResult)) (count : Nat) (h : acceptTask ex t = none) :
    runBatch ex (t :: ts) count
      = ⟨(runBatch ex ts count).texts, (runBatch ex ts count).count,
          (runBatch ex ts count).stop, t :: (runBatch ex ts count).processed⟩ := by
  simp only [runBatch, h]

theorem runBatch_cons_some_stop (ex : String → Option String) (t : String × TaskResult)
    (ts : List (String × TaskResult)) (count : Nat) {s : String}
    (h : acceptTask ex t = some s) (hc : 45 ≤ count + 1) :
    runBatch ex (t :: ts) count = ⟨[s], count + 1, true, [t]⟩ := by
  simp only [runBatch, h, if_pos hc]

theorem runBatch_cons_some_go (ex : String → Option String) (t : String × TaskResult)
    (ts : List (String × TaskResult)) (count : Nat) {s : String}
    (h : acceptTask ex t = some s) (hc : ¬ 45 ≤ count + 1) :
    runBatch ex (t :: ts) count
      = ⟨s :: (runBatch ex ts (count + 1)).texts, (runBatch ex ts (count + 1)).count,
          (runBatch ex ts (count + 1)).stop, t :: (runBatch ex ts (count + 1)).processed⟩ := by
  simp only [runBatch, h, if_neg hc]

/-- The inner batch loop agrees with the reference interpreter capped at
the remaining budget `45 - count`. -/
theorem runBatch_eq_capRun (ex : String → Option String)
    (b : List (String × TaskResult)) :
    ∀ count : Nat, count < 45 →
      runBatch ex b count
        = ⟨(capRun ex b (45 - count)).1,
            count + (capRun ex b (45 - count)).1.length,
            decide (45 - count ≤ countAccepts ex b),
            (capRun ex b (45 - count)).2⟩ := by
  induction b with
  | nil =>
    intro count hc
    have h0 : ¬ (45 - count ≤ 0) := by omega
    simp [runBatch, capRun, countAccepts, h0]
  | cons t ts ih =>
    intro count hc
    cases hat : acceptTask ex t with
    | none =>
      rw [runBatch_cons_none ex t ts count hat, ih count hc,
        capRun_cons_none ts (45 - count) hat, countAccepts_cons_none ts hat]
    | some s =>
      by_cases hstop : 45 ≤ count + 1
      · have hr1 : 45 - count = 1 := by omega
        rw [runBatch_cons_some_stop ex t ts count hat hstop, hr1,
          capRun_cons_some_le ts 1 hat (by omega), countAccepts_cons_some ts hat]
        have hde : (1 ≤ countAccepts ex ts + 1) := by omega
        simp [hde]
      · have hr2 : ¬ (45 - count ≤ 1) := by omega
        rw [runBatch_cons_some_go ex t ts count hat hstop, ih (count + 1) (by omega),
          capRun_cons_some_gt ts (45 - count) hat hr2, countAccepts_cons_some ts hat]
        have harith : 45 - (count + 1) = 45 - count - 1 := by omega
        rw [harith]
        simp only [List.length_cons, BatchOut.mk.injEq]
        refine ⟨trivial, by omega, ?_, trivial⟩
        rw [decide_eq_decide]
        omega

/-- Once the cap is reached inside `l1`, the tasks after `l1` are never
examined. -/
theorem capRun_append_of_ge (ex : String → Option String) :
    ∀ (l1 l2 : List (String × TaskResult)) (r : Nat), 1 ≤ r →
      r ≤ countAccepts ex l1 → capRun ex (l1 ++ l2) r = capRun ex l1 r := by
  intro l1
  induction l1 with
  | nil =>
    intro l2 r h1 hr
    simp [countAccepts] at hr
    omega
  | cons t ts ih =>
    intro l2 r h1 hr
    cases hat : acceptTask ex t with
    | none =>
      rw [countAccepts_cons_none ts hat] at hr
      rw [List.cons_append, capRun_cons_none _ _ hat, capRun_cons_none _ _ hat,
        ih l2 r h1 hr]
    | some s =>
      by_cases hrle : r ≤ 1
      · rw [List.cons_append, capRun_cons_some_le _ _ hat hrle,
          capRun_cons_some_le _ _ hat hrle]
      · rw [countAccepts_cons_some ts hat] at hr
        rw [List.cons_append, capRun_cons_some_gt _ _ hat hrle,
          capRun_cons_some_gt _ _ hat hrle, ih l2 (r - 1) (by omega) (by omega)]

/-- Under budget, the capped run examines everything and accepts exactly
the `filterMap` of the acceptance function. -/
theorem capRun_total (ex : String → Option String) :
    ∀ (l : List (String × TaskResult)) (r : Nat), countAccepts ex l < r →
      capRun ex l r = (l.filterMap (acceptTask ex), l) := by
  intro l
  induction l with
  | nil => intro r h; simp [capRun]
  | cons t ts ih =>
    intro r h
    cases hat : acceptTask ex t with
    | none =>
      rw [countAccepts_cons_none ts hat] at h
      rw [capRun_cons_none _ _ hat, ih r h]
      simp [List.filterMap_cons, hat]
    | some s =>
      rw [countAccepts_cons_some ts hat] at h
      have hr : ¬ r ≤ 1 := by omega
      rw [capRun_cons_some_gt _ _ hat hr, ih (r - 1) (by omega)]
      simp [List.filterMap_cons, hat]

/-- Splitting a capped run at a list append, when the first part stays
under budget. -/
theorem capRun_append_of_lt (ex : String → Option String) :
    ∀ (l1 l2 : List (String × TaskResult)) (r : Nat), countAccepts ex l1 < r →
      capRun ex (l1 ++ l2) r
        = (l1.filterMap (acceptTask ex)
              ++ (capRun ex l2 (r - countAccepts ex l1)).1,
            l1 ++ (capRun ex l2 (r - countAccepts ex l1)).2) := by
  intro l1
  induction l1 with
  | nil =>
    intro l2 r h
    simp [countAccepts]
  | cons t ts ih =>
    intro l2 r h
    cases hat : acceptTask ex t with
    | none =>
      rw [countAccepts_cons_none ts hat] at h
      rw [List.cons_append, capRun_cons_none _ _ hat, ih l2 r h]
      simp [List.filterMap_cons, hat, countAccepts_cons_none ts hat]
    | some s =>
      rw [countAccepts_cons_some ts hat] at h
      have hr : ¬ r ≤ 1 := by omega
      rw [List.cons_append, capRun_cons_some_gt _ _ hat hr, ih l2 (r - 1) (by omega)]
      have harith : r - 1 - countAccepts ex ts = r - (countAccepts ex ts + 1) := by omega
      simp [List.filterMap_cons, hat, countAccepts_cons_some ts hat, harith]

theorem chunksOf_succ_cons (n : Nat) (x : α) (xs : List α) :
    chunksOf (n + 1) (x :: xs)
      = (x :: xs).take (n + 1) :: chunksOf (n + 1) ((x :: xs).drop (n + 1)) := by
  rw [chunksOf]


/-- The outer loop over windows agrees with the reference interpreter on
the flat task list, capped at the remaining budget. -/
theorem runBatches_eq_capRun (ex : String → Option String) :
    ∀ (N : Nat) (l : List (String × TaskResult)), l.length ≤ N →
      ∀ count : Nat, count < 45 →
        runBatches ex (chunksOf 5 l) count = capRun ex l (45 - count) := by
  intro N
  induction N with
  | zero =>
    intro l hl count hc
    have hnil : l = [] := List.eq_nil_of_length_eq_zero (by omega)
    subst hnil
    simp [chunksOf, runBatches, capRun]
  | succ N ih =>
    intro l hl count hc
    cases l with
    | nil => simp [chunksOf, runBatches, capRun]
    | cons x xs =>
      have h5 : chunksOf 5 (x :: xs)
          = (x :: xs).take 5 :: chunksOf 5 ((x :: xs).drop 5) :=
        chunksOf_succ_cons 4 x xs
      rw [h5]
      simp only [runBatches]
      rw [runBatch_eq_capRun ex ((x :: xs).take 5) count hc]
      have hxs : (x :: xs).take 5 ++ (x :: xs).drop 5 = x :: xs :=
        List.take_append_drop 5 (x :: xs)
      by_cases hst : 45 - count ≤ countAccepts ex ((x :: xs).take 5)
      · rw [if_pos (by simpa using hst)]
        have hge := capRun_append_of_ge ex ((x :: xs).take 5) ((x :: xs).drop 5)
          (45 - count) (by omega) hst
        rw [hxs] at hge
        rw [hge]
      · rw [if_neg (by simpa using hst)]
        have hlt : countAccepts ex ((x :: xs).take 5) < 45 - count := by omega
        have htot := capRun_total ex ((x :: xs).take 5) (45 - count) hlt
        rw [htot]
        simp only
        have hlenrw : (((x :: xs).take 5).filterMap (acceptTask ex)).length
            = countAccepts ex ((x :: xs).take 5) := rfl
        rw [hlenrw]
        have hdroplen : ((x :: xs).drop 5).length ≤ N := by
          simp only [List.length_drop, List.length_cons] at *
          omega
        have hcount2 : count + countAccepts ex ((x :: xs).take 5) < 45 := by omega
        rw [ih ((x :: xs).drop 5) hdroplen
          (count + countAccepts ex ((x :: xs).take 5)) hcount2]
        have hsplit := capRun_append_of_lt ex ((x :: xs).take 5) ((x :: xs).drop 5)
          (45 - count) hlt
        rw [hxs] at hsplit
        rw [hsplit]
        have harith : 45 - (count + countAccepts ex ((x :: xs).take 5))
            = 45 - count - countAccepts ex ((x :: xs).take 5) := by omega
        rw [harith]

/-- `extract_texts` equals the reference interpreter's accepted texts. -/
theorem extract_texts_eq (ex : String → Option String)
    (tasks : List (String × TaskResult)) :
    extract_texts ex tasks = (capRun ex tasks 45).1 := by
  unfold extract_texts process_in_batches
  rw [runBatches_eq_capRun ex tasks.length tasks le_rfl 0 (by omega)]

/-- `processedTasks` equals the reference interpreter's examined tasks. -/
theorem processedTasks_eq (ex : String → Option String)
    (tasks : List (String × TaskResult)) :
    processedTasks ex tasks = (capRun ex tasks 45).2 := by
  unfold processedTasks process_in_batches
  rw [runBatches_eq_capRun ex tasks.length tasks le_rfl 0 (by omega)]

/-- The flat concatenation of the first `i` windows is the corresponding
prefix of the URL list. -/
theorem chunksOf_take_join (n : Nat) :
    ∀ (i : Nat) (l : List α),
      (((chunksOf (n + 1) l).take i)).flatten = l.take ((n + 1) * i) := by
  intro i
  induction i with
  | zero => intro l; simp
  | succ i ih =>
    intro l
    cases l with
    | nil => simp [chunksOf]
    | cons x xs =>
      rw [chunksOf_succ_cons n x xs, List.take_succ_cons, List.flatten_cons,
        ih ((x :: xs).drop (n + 1))]
      have harith : (n + 1) * (i + 1) = (n + 1) + (n + 1) * i := by ring
      rw [harith]
      conv_rhs => rw [List.take_add]

/-! ### Claim C3 -/

/-- Claim C3: for every run of `extract_texts` (over any per-URL fetch
and summarization outcomes), at most 45 snippets are returned; and once
45 documents have been accepted within the first `i` windows, no task of
any later window is examined: the examined tasks form a prefix of the
task list contained in the first `i` windows. -/
theorem c3_cap_and_early_stop (ex : String → Option String)
    (tasks : List (String × TaskResult)) :
    (extract_texts ex tasks).length ≤ 45 ∧
    ∀ i : Nat, 45 ≤ countAccepts ex (((chunksOf 5 tasks).take i).flatten) →
      (∃ rest, tasks = processedTasks ex tasks ++ rest) ∧
      (processedTasks ex tasks).length ≤ (((chunksOf 5 tasks).take i).flatten).length := by
  constructor
  · rw [extract_texts_eq]
    have := capRun_fst_length ex tasks 45
    omega
  · intro i hcap
    have hjoin : (((chunksOf 5 tasks).take i)).flatten = tasks.take (5 * i) :=
      chunksOf_take_join 4 i tasks
    rw [hjoin] at hcap ⊢
    rw [processedTasks_eq]
    obtain ⟨rest, hrest⟩ := capRun_snd_prefix ex tasks 45
    refine ⟨⟨rest, hrest⟩, ?_⟩
    have h1 : (capRun ex tasks 45).2.length ≤ 5 * i :=
      capRun_snd_length_le ex tasks 45 (5 * i) (by omega) hcap
    have h2 : (capRun ex tasks 45).2.length ≤ tasks.length := by
      have := congrArg List.length hrest
      simp only [List.length_append] at this
      omega
    rw [List.length_take]
    omega

/-- Witness for C3: 50 URLs all fetching 200 and summarizing; the first
9 windows already contain 45 accepted documents, so the digest holds 45
snippets and the tenth window is never examined. -/
theorem c3_cap_and_early_stop_witness :
    (extract_texts exId (List.replicate 50 ("u", TaskResult.ok 200 "b"))).length ≤ 45 ∧
    ((∃ rest, List.replicate 50 ("u", TaskResult.ok 200 "b")
          = processedTasks exId (List.replicate 50 ("u", TaskResult.ok 200 "b")) ++ rest) ∧
      (processedTasks exId (List.replicate 50 ("u", TaskResult.ok 200 "b"))).length
        ≤ (((chunksOf 5 (List.replicate 50 ("u", TaskResult.ok 200 "b"))).take 9).flatten).length) := by
  have h := c3_cap_and_early_stop exId (List.replicate 50 ("u", TaskResult.ok 200 "b"))
  refine ⟨h.1, h.2 9 ?_⟩
  have hjoin : (((chunksOf 5 (List.replicate 50 ("u", TaskResult.ok 200 "b"))).take 9)).flatten
      = (List.replicate 50 ("u", TaskResult.ok 200 "b")).take (5 * 9) :=
    chunksOf_take_join 4 9 _
  rw [hjoin]
  decide

/-! ### Claim C7 -/

/-- Counterexample to claim C7: a response with the 2xx status 201 and a
perfectly extractable body is discarded (the code tests
`status_code != 200`, not the 2xx class), while the same response with
status 200 is accepted. -/
theorem c7_counterexample :
    extract_texts exId [("u", TaskResult.ok 201 "b")] = [] ∧
    extract_texts exId [("u", TaskResult.ok 200 "b")] = ["u" ++ "\n" ++ "b"] := by
  constructor
  · rw [extract_texts_eq]
    decide
  · rw [extract_texts_eq]
    decide

/-- Claim C7 amended: a fetched document is accepted and summarized
exactly when its HTTP status equals 200 (not the whole 2xx class) and
extraction succeeds; any other status, a timeout, or a transport error
discards the document without an error and the batch continues with the
remaining tasks. -/
theorem c7_only_200_accepted (ex : String → Option String) :
    (∀ url status body rest, status ≠ 200 →
        extract_texts ex ((url, TaskResult.ok status body) :: rest)
          = extract_texts ex rest) ∧
    (∀ url rest, extract_texts ex ((url, TaskResult.readTimeout) :: rest)
        = extract_texts ex rest) ∧
    (∀ url rest, extract_texts ex ((url, TaskResult.exn) :: rest)
        = extract_texts ex rest) ∧
    (∀ url body t rest, ex body = some t →
        extract_texts ex ((url, TaskResult.ok 200 body) :: rest)
          = (url ++ "\n" ++ t) :: (capRun ex rest 44).1) := by
  refine ⟨?_, ?_, ?_, ?_⟩
  · intro url status body rest hstatus
    rw [extract_texts_eq, extract_texts_eq,
      capRun_cons_none rest 45 (by simp [acceptTask, hstatus])]
  · intro url rest
    rw [extract_texts_eq, extract_texts_eq, capRun_cons_none rest 45 (by simp [acceptTask])]
  · intro url rest
    rw [extract_texts_eq, extract_texts_eq, capRun_cons_none rest 45 (by simp [acceptTask])]
  · intro url body t rest hex
    have hacc : acceptTask ex (url, TaskResult.ok 200 body)
        = some (url ++ "\n" ++ t) := by
      simp [acceptTask, hex]
    rw [extract_texts_eq, capRun_cons_some_gt rest 45 hacc (by omega)]

/-- Witness for C7 amended: a 404 response is skipped and a 200 response
with body "c" is accepted as "w\nc". -/
theorem c7_only_200_accepted_witness :
    extract_texts exId [("u", TaskResult.ok 404 "b"), ("w", TaskResult.ok 200 "c")]
        = extract_texts exId [("w", TaskResult.ok 200 "c")] ∧
    extract_texts exId [("w", TaskResult.ok 200 "c")]
        = ("w" ++ "\n" ++ "c") :: (capRun exId [] 44).1 := by
  constructor
  · exact (c7_only_200_accepted exId).1 "u" 404 "b" [("w", TaskResult.ok 200 "c")]
      (by decide)
  · exact (c7_only_200_accepted exId).2.2.2 "w" "c" "c" [] rfl
